import Mathlib

/-!
Verification of pico-sequencer: the start-up supervisor `main`.

A shallow embedding of `src/pico-sequencer/src/main.c`.  `main` is a straight
line of calls into the Pico SDK and the PicoRuby runtime:

```
stdio_init_all();
sleep_ms(2000);
printf("Starting PicoRuby Sequencer...\n");
mrb_state *mrb = picoruby_init();
picoruby_run_mrb(mrb);
printf("Ruby execution ended (this should not happen)\n");
mrb_close(mrb);
return 0;
```

The external functions are parameters of the model (`Platform`); `main` is a
small-step machine whose program counter ranges over the statements of the
function and whose state accumulates the trace of calls `main` makes.  The one
call that may fail to return, `picoruby_run_mrb`, is given an explicit
"inside the callee" program point at which the machine can stay forever.
-/

namespace PicoSequencer

/-- An `mrb_state *`, seen as an address; `0` is the null pointer. -/
abbrev Handle := Nat

/-- What the world outside `main` does.  Nothing here is fixed by `main.c`:
every field is universally quantified in the theorems below. -/
structure Platform where
  /-- Result of `stdio_init_all()` (the SDK reports whether a stdio
  driver came up). -/
  stdio_init_all : Bool
  /-- Pointer returned by `picoruby_init()`. -/
  picoruby_init : Handle
  /-- Behaviour of `picoruby_run_mrb(mrb)`: `none` when the call never
  returns, `some k` when it returns after `k` internal steps. -/
  picoruby_run_mrb : Handle → Option Nat

/-- One entry of the trace of `main`: a completed call to an external
function with the argument `main` passed (or the value it received), the
moment control enters `picoruby_run_mrb`, the moment it comes back, and the
end of the process. -/
inductive Event where
  | stdio_init_all
  | sleep_ms (ms : Nat)
  | printf (text : String)
  | picoruby_init (ret : Handle)
  | picoruby_run_mrb (arg : Handle)
  | picoruby_run_mrb_returned
  | mrb_close (arg : Handle)
  | exit (status : Int)
  deriving DecidableEq, Repr

/-- Text of the first `printf` (line 13). -/
def startupMarker : String := "Starting PicoRuby Sequencer...\n"

/-- Text of the second `printf` (line 22). -/
def abnormalMarker : String := "Ruby execution ended (this should not happen)\n"

/-- Program points of `main`.  The local `mrb` exists from line 16 on, so the
points after its declaration carry its value. -/
inductive Pc where
  /-- Line 8, before `stdio_init_all();`. -/
  | atStdioInit
  /-- Line 11, before `sleep_ms(2000);`. -/
  | atSleep
  /-- Line 13, before the first `printf`. -/
  | atPrintStart
  /-- Line 16, before `mrb_state *mrb = picoruby_init();`. -/
  | atPicorubyInit
  /-- Line 19, before `picoruby_run_mrb(mrb);`. -/
  | atRun (mrb : Handle)
  /-- Inside `picoruby_run_mrb(mrb)`; `remaining` is what is left of the
  callee: `none` for ever, `some k` for `k` more steps. -/
  | inRun (mrb : Handle) (remaining : Option Nat)
  /-- Line 22, before the second `printf`. -/
  | atPrintEnd (mrb : Handle)
  /-- Line 25, before `mrb_close(mrb);`. -/
  | atClose (mrb : Handle)
  /-- Line 27, before `return 0;`. -/
  | atReturn
  /-- After `main` has returned. -/
  | terminated
  deriving DecidableEq, Repr

/-- Machine state: program point, the calls made so far (oldest first) and
the exit status once `main` has returned. -/
structure State where
  pc : Pc
  trace : List Event
  status : Option Int
  deriving DecidableEq, Repr

/-- Entry of `main`. -/
def State.init : State := ⟨Pc.atStdioInit, [], none⟩

/-- One statement of `main` (or one step of the callee while control is
inside `picoruby_run_mrb`). -/
def step (env : Platform) (s : State) : State :=
  match s.pc with
  | Pc.atStdioInit =>
    -- stdio_init_all();   the bool it returns is dropped
    let _unused := env.stdio_init_all
    { s with pc := Pc.atSleep, trace := s.trace ++ [Event.stdio_init_all] }
  | Pc.atSleep =>
    { s with pc := Pc.atPrintStart, trace := s.trace ++ [Event.sleep_ms 2000] }
  | Pc.atPrintStart =>
    { s with pc := Pc.atPicorubyInit, trace := s.trace ++ [Event.printf startupMarker] }
  | Pc.atPicorubyInit =>
    let mrb := env.picoruby_init
    { s with pc := Pc.atRun mrb, trace := s.trace ++ [Event.picoruby_init mrb] }
  | Pc.atRun mrb =>
    { s with pc := Pc.inRun mrb (env.picoruby_run_mrb mrb),
             trace := s.trace ++ [Event.picoruby_run_mrb mrb] }
  | Pc.inRun _ none => s
  | Pc.inRun mrb (some (k + 1)) => { s with pc := Pc.inRun mrb (some k) }
  | Pc.inRun mrb (some 0) =>
    { s with pc := Pc.atPrintEnd mrb, trace := s.trace ++ [Event.picoruby_run_mrb_returned] }
  | Pc.atPrintEnd mrb =>
    { s with pc := Pc.atClose mrb, trace := s.trace ++ [Event.printf abnormalMarker] }
  | Pc.atClose mrb =>
    { s with pc := Pc.atReturn, trace := s.trace ++ [Event.mrb_close mrb] }
  | Pc.atReturn =>
    { pc := Pc.terminated, trace := s.trace ++ [Event.exit 0], status := some 0 }
  | Pc.terminated => s

/-- The machine after `n` steps from `s`. -/
def steps (env : Platform) : Nat → State → State
  | 0, s => s
  | n + 1, s => steps env n (step env s)

/-- The state of `main` after `n` steps from its entry. -/
def main (env : Platform) (n : Nat) : State := steps env n State.init

/-- Is the event a call of `picoruby_init`? -/
def Event.isConstruct : Event → Bool
  | Event.picoruby_init _ => true
  | _ => false

/-- Is the event a call of `mrb_close`? -/
def Event.isRelease : Event → Bool
  | Event.mrb_close _ => true
  | _ => false

/-- Is the event a call of `sleep_ms`? -/
def Event.isDelay : Event → Bool
  | Event.sleep_ms _ => true
  | _ => false

/-- The texts written with `printf`, in order. -/
def output : List Event → List String
  | [] => []
  | Event.printf text :: rest => text :: output rest
  | _ :: rest => output rest

/-- The five calls of the bring-up, through the hand-off of `mrb`. -/
def bringUp (h : Handle) : List Event :=
  [Event.stdio_init_all, Event.sleep_ms 2000, Event.printf startupMarker,
   Event.picoruby_init h, Event.picoruby_run_mrb h]

/-- What `main` does once `picoruby_run_mrb` has come back. -/
def afterReturn (h : Handle) : List Event :=
  [Event.printf abnormalMarker, Event.mrb_close h, Event.exit 0]

/-- The whole trace of a run in which `picoruby_run_mrb` returns. -/
def fullTrace (h : Handle) : List Event :=
  bringUp h ++ Event.picoruby_run_mrb_returned :: afterReturn h

/-- A platform whose `picoruby_run_mrb` returns at once. -/
def envReturns : Platform := ⟨true, 536870912, fun _ => some 0⟩

/-- A platform whose `picoruby_run_mrb` never returns. -/
def envLoops : Platform := ⟨true, 536870912, fun _ => none⟩

/-- A platform with no stdio driver, a null interpreter and a
`picoruby_run_mrb` that returns after three steps. -/
def envBroken : Platform := ⟨false, 0, fun _ => some 3⟩

/-- The handle arguments of an event replaced by `a`. -/
def Event.setHandle (a : Handle) : Event → Event
  | Event.picoruby_init _ => Event.picoruby_init a
  | Event.picoruby_run_mrb _ => Event.picoruby_run_mrb a
  | Event.mrb_close _ => Event.mrb_close a
  | e => e

/-- The value of the local `mrb` replaced by `a`, the program point kept. -/
def Pc.setHandle (a : Handle) : Pc → Pc
  | Pc.atRun _ => Pc.atRun a
  | Pc.inRun _ r => Pc.inRun a r
  | Pc.atPrintEnd _ => Pc.atPrintEnd a
  | Pc.atClose _ => Pc.atClose a
  | p => p

/-- A state with every occurrence of the interpreter handle replaced by `a`. -/
def State.setHandle (a : Handle) (s : State) : State :=
  ⟨s.pc.setHandle a, s.trace.map (Event.setHandle a), s.status⟩

/-- Number of trace entries `main` has produced when it stands at a program
point. -/
def Pc.position : Pc → Nat
  | Pc.atStdioInit => 0
  | Pc.atSleep => 1
  | Pc.atPrintStart => 2
  | Pc.atPicorubyInit => 3
  | Pc.atRun _ => 4
  | Pc.inRun _ _ => 5
  | Pc.atPrintEnd _ => 6
  | Pc.atClose _ => 7
  | Pc.atReturn => 8
  | Pc.terminated => 9

/-- The local `mrb` holds what `picoruby_init` returned, and a program point
behind the call of `picoruby_run_mrb` is only reached when that call returns. -/
def Pc.wf (env : Platform) : Pc → Prop
  | Pc.atStdioInit => True
  | Pc.atSleep => True
  | Pc.atPrintStart => True
  | Pc.atPicorubyInit => True
  | Pc.atRun m => m = env.picoruby_init
  | Pc.inRun m r => m = env.picoruby_init ∧
      (r = none ↔ env.picoruby_run_mrb env.picoruby_init = none)
  | Pc.atPrintEnd m => m = env.picoruby_init ∧
      env.picoruby_run_mrb env.picoruby_init ≠ none
  | Pc.atClose m => m = env.picoruby_init ∧
      env.picoruby_run_mrb env.picoruby_init ≠ none
  | Pc.atReturn => env.picoruby_run_mrb env.picoruby_init ≠ none
  | Pc.terminated => env.picoruby_run_mrb env.picoruby_init ≠ none

/-- Invariant of the machine: the trace is the part of `fullTrace` that
belongs to the program point, and the status is set exactly at the end. -/
def Inv (env : Platform) (s : State) : Prop :=
  s.trace = (fullTrace env.picoruby_init).take s.pc.position ∧
  s.status = (if s.pc = Pc.terminated then some 0 else none) ∧
  s.pc.wf env


/-! ## Lemmas on the machine -/

theorem steps_add (env : Platform) (a b : Nat) (s : State) :
    steps env (a + b) s = steps env b (steps env a s) := by
  induction a generalizing s with
  | zero => simp [steps]
  | succ a ih => rw [Nat.succ_add]; exact ih (step env s)

theorem steps_succ_right (env : Platform) (n : Nat) (s : State) :
    steps env (n + 1) s = step env (steps env n s) := by
  rw [steps_add]; rfl

theorem main_succ (env : Platform) (n : Nat) :
    main env (n + 1) = step env (main env n) :=
  steps_succ_right env n State.init

theorem inv_init (env : Platform) : Inv env State.init := by
  simp [Inv, State.init, Pc.position, Pc.wf]

theorem inv_step (env : Platform) (s : State) (hs : Inv env s) :
    Inv env (step env s) := by
  obtain ⟨pc, tr, st⟩ := s
  obtain ⟨h1, h2, h3⟩ := hs
  simp only at h1 h2 h3
  cases pc with
  | inRun m r =>
    obtain ⟨rfl, hr⟩ := h3
    rcases r with _ | _ | k
    · exact ⟨h1, h2, rfl, hr⟩
    · have hne : env.picoruby_run_mrb env.picoruby_init ≠ none := by
        intro hc; simpa using hr.2 hc
      subst h1
      simp [Inv, step, Pc.position, Pc.wf, fullTrace, bringUp, afterReturn, h2, hne]
    · have hne : env.picoruby_run_mrb env.picoruby_init ≠ none := by
        intro hc; simpa using hr.2 hc
      subst h1
      simp [Inv, step, Pc.position, Pc.wf, fullTrace, bringUp, afterReturn, h2, hne]
  | _ =>
    subst h1
    simp_all [Inv, step, Pc.position, Pc.wf, fullTrace, bringUp, afterReturn]

theorem inv_main (env : Platform) (n : Nat) : Inv env (main env n) := by
  induction n with
  | zero => exact inv_init env
  | succ n ih => rw [main_succ]; exact inv_step env _ ih

theorem main_five (env : Platform) :
    main env 5 = ⟨Pc.inRun env.picoruby_init (env.picoruby_run_mrb env.picoruby_init),
      bringUp env.picoruby_init, none⟩ := rfl

theorem main_le_five (env : Platform) (n : Nat) (hn : n ≤ 5) :
    (main env n).trace = (bringUp env.picoruby_init).take n ∧
    (main env n).status = none ∧ (main env n).pc ≠ Pc.terminated := by
  interval_cases n <;> refine ⟨rfl, rfl, ?_⟩ <;> simp [main, steps, step, State.init]

theorem steps_inRun_none (env : Platform) (n : Nat) (m : Handle) (t : List Event)
    (st : Option Int) :
    steps env n ⟨Pc.inRun m none, t, st⟩ = ⟨Pc.inRun m none, t, st⟩ := by
  induction n with
  | zero => rfl
  | succ n ih => simpa [steps, step] using ih

theorem steps_inRun_some (env : Platform) (j k : Nat) (m : Handle) (t : List Event)
    (st : Option Int) :
    steps env j ⟨Pc.inRun m (some (k + j)), t, st⟩ = ⟨Pc.inRun m (some k), t, st⟩ := by
  induction j generalizing k with
  | zero => rfl
  | succ j ih =>
    have h := ih (k + 1)
    rw [steps_succ_right, show k + (j + 1) = k + 1 + j by omega, h]
    rfl

theorem steps_terminated (env : Platform) (n : Nat) (t : List Event) (st : Option Int) :
    steps env n ⟨Pc.terminated, t, st⟩ = ⟨Pc.terminated, t, st⟩ := by
  induction n with
  | zero => rfl
  | succ n ih => simpa [steps, step] using ih

/-- A run whose `picoruby_run_mrb` never returns stays inside that call. -/
theorem main_loops (env : Platform)
    (hnr : env.picoruby_run_mrb env.picoruby_init = none) (n : Nat) (hn : 5 ≤ n) :
    main env n = ⟨Pc.inRun env.picoruby_init none, bringUp env.picoruby_init, none⟩ := by
  obtain ⟨d, rfl⟩ := Nat.exists_eq_add_of_le hn
  rw [main, steps_add]
  have h5 := main_five env
  rw [main] at h5
  rw [h5, hnr, steps_inRun_none]

/-- Control is inside `picoruby_run_mrb` for `k` steps when the call returns
after `k` steps. -/
theorem main_inside (env : Platform) (k : Nat)
    (hret : env.picoruby_run_mrb env.picoruby_init = some k) (j : Nat) (hj : j ≤ k) :
    main env (5 + j) =
      ⟨Pc.inRun env.picoruby_init (some (k - j)), bringUp env.picoruby_init, none⟩ := by
  rw [main, steps_add]
  have h5 := main_five env
  rw [main] at h5
  rw [h5, hret]
  have h := steps_inRun_some env j (k - j) env.picoruby_init (bringUp env.picoruby_init) none
  rwa [Nat.sub_add_cancel hj] at h

/-- The state in which `picoruby_run_mrb` has just come back. -/
theorem main_returned (env : Platform) (k : Nat)
    (hret : env.picoruby_run_mrb env.picoruby_init = some k) :
    main env (k + 6) = ⟨Pc.atPrintEnd env.picoruby_init,
      bringUp env.picoruby_init ++ [Event.picoruby_run_mrb_returned], none⟩ := by
  have h := main_inside env k hret k (le_refl k)
  rw [show k + 6 = (5 + k) + 1 by omega, main_succ, h, Nat.sub_self]
  rfl

/-- The final state of a run whose `picoruby_run_mrb` returns. -/
theorem main_final (env : Platform) (k : Nat)
    (hret : env.picoruby_run_mrb env.picoruby_init = some k) (n : Nat) (hn : k + 9 ≤ n) :
    main env n = ⟨Pc.terminated, fullTrace env.picoruby_init, some 0⟩ := by
  obtain ⟨d, rfl⟩ := Nat.exists_eq_add_of_le hn
  have h9 : main env (k + 9) = ⟨Pc.terminated, fullTrace env.picoruby_init, some 0⟩ := by
    have h := main_returned env k hret
    rw [main] at h
    rw [show k + 9 = (k + 6) + 3 by omega, main, steps_add, h]
    rfl
  rw [main] at h9
  rw [main, steps_add, h9, steps_terminated]

theorem step_trace_grows (env : Platform) (s : State) :
    s.trace <+: (step env s).trace := by
  obtain ⟨pc, tr, st⟩ := s
  cases pc with
  | inRun m r =>
    rcases r with _ | _ | k <;> simp [step]
  | _ => simp [step]

theorem main_trace_mono (env : Platform) (n d : Nat) :
    (main env n).trace <+: (main env (n + d)).trace := by
  induction d with
  | zero => exact List.prefix_refl _
  | succ d ih =>
    rw [← Nat.add_assoc, main_succ]
    exact ih.trans (step_trace_grows env _)

/-- Every trace of `main` is an initial part of `fullTrace`. -/
theorem main_trace_initial (env : Platform) (n : Nat) :
    (main env n).trace <+: fullTrace env.picoruby_init := by
  rw [(inv_main env n).1]
  exact List.take_prefix _ _

/-- While `picoruby_run_mrb` does not return the trace is an initial part of
`bringUp`. -/
theorem main_trace_bringUp_of_loops (env : Platform)
    (hnr : env.picoruby_run_mrb env.picoruby_init = none) (n : Nat) :
    (main env n).trace <+: bringUp env.picoruby_init := by
  rcases Nat.le_total n 5 with h | h
  · rw [(main_le_five env n h).1]; exact List.take_prefix _ _
  · rw [main_loops env hnr n h]

/-- The initial parts of `fullTrace`, listed. -/
theorem initial_fullTrace (h : Handle) (p : List Event) (hp : p <+: fullTrace h) :
    ∃ m, m ≤ 9 ∧ p = (fullTrace h).take m := by
  refine ⟨p.length, ?_, List.prefix_iff_eq_take.mp hp⟩
  have := hp.length_le
  simpa [fullTrace, bringUp, afterReturn] using this

/-- Where a trace splits around one of its entries, `fullTrace` has that
entry at that index. -/
theorem split_of_initial (L pre post : List Event) (x : Event)
    (hp : pre ++ x :: post <+: L) :
    pre = L.take pre.length ∧ L[pre.length]? = some x := by
  obtain ⟨t, rfl⟩ := hp
  refine ⟨by simp, ?_⟩
  rw [List.append_assoc, List.getElem?_append_right (le_refl _)]
  simp

theorem markers_ne : startupMarker ≠ abnormalMarker := by decide

theorem getElem?_fullTrace_lt (h : Handle) (i : Nat) (x : Event)
    (hx : (fullTrace h)[i]? = some x) : i < 9 := by
  have := (List.getElem?_eq_some.mp hx).1
  simpa [fullTrace, bringUp, afterReturn] using this

theorem step_setHandle (env env2 : Platform)
    (hrun : env.picoruby_run_mrb env.picoruby_init =
      env2.picoruby_run_mrb env2.picoruby_init)
    (s : State) (hwf : s.pc.wf env) :
    (step env s).setHandle env2.picoruby_init =
      step env2 (s.setHandle env2.picoruby_init) := by
  obtain ⟨pc, tr, st⟩ := s
  cases pc with
  | inRun m r =>
    rcases r with _ | _ | k <;>
      simp [step, State.setHandle, Pc.setHandle, Event.setHandle]
  | atRun m =>
    have hm : m = env.picoruby_init := hwf
    subst hm
    simp [step, State.setHandle, Pc.setHandle, Event.setHandle, hrun]
  | _ => simp [step, State.setHandle, Pc.setHandle, Event.setHandle]

theorem main_setHandle (env env2 : Platform)
    (hrun : env.picoruby_run_mrb env.picoruby_init =
      env2.picoruby_run_mrb env2.picoruby_init) (n : Nat) :
    (main env n).setHandle env2.picoruby_init = main env2 n := by
  induction n with
  | zero => rfl
  | succ n ih =>
    rw [main_succ, main_succ, step_setHandle env env2 hrun _ (inv_main env n).2.2, ih]

theorem step_stdio_irrelevant (b c : Bool) (h : Handle) (r : Handle → Option Nat)
    (s : State) : step ⟨b, h, r⟩ s = step ⟨c, h, r⟩ s := rfl

theorem main_stdio_irrelevant (b c : Bool) (h : Handle) (r : Handle → Option Nat)
    (n : Nat) : main ⟨b, h, r⟩ n = main ⟨c, h, r⟩ n := by
  induction n with
  | zero => rfl
  | succ n ih => rw [main_succ, main_succ, ih, step_stdio_irrelevant b c]

/-! ## The claims -/

/-- C1 (abnormal path, P4): in a run whose `picoruby_run_mrb` returns (after
any number `k` of internal steps), `main` terminates, and from then on its
trace holds the abnormal-termination `printf` exactly once, exactly one
`mrb_close`, called with the very pointer `picoruby_init` returned (the one
`picoruby_init` entry of the trace), and the exit status is `0`. -/
theorem abnormal_path_correct (env : Platform) (k n : Nat)
    (hret : env.picoruby_run_mrb env.picoruby_init = some k) (hn : k + 9 ≤ n) :
    (main env n).pc = Pc.terminated ∧
    (main env n).trace.count (Event.printf abnormalMarker) = 1 ∧
    (main env n).trace.filter Event.isConstruct =
      [Event.picoruby_init env.picoruby_init] ∧
    (main env n).trace.filter Event.isRelease =
      [Event.mrb_close env.picoruby_init] ∧
    (main env n).status = some 0 := by
  rw [main_final env k hret n hn]
  refine ⟨rfl, ?_, ?_, ?_, rfl⟩
  · simp [fullTrace, bringUp, afterReturn, List.count_cons, markers_ne]
  · simp [fullTrace, bringUp, afterReturn, Event.isConstruct]
  · simp [fullTrace, bringUp, afterReturn, Event.isRelease]

theorem abnormal_path_correct_witness :
    envBroken.picoruby_run_mrb envBroken.picoruby_init = some 3 ∧ 3 + 9 ≤ 12 ∧
    (main envBroken 12).pc = Pc.terminated ∧
    (main envBroken 12).trace.count (Event.printf abnormalMarker) = 1 ∧
    (main envBroken 12).trace.filter Event.isConstruct = [Event.picoruby_init 0] ∧
    (main envBroken 12).trace.filter Event.isRelease = [Event.mrb_close 0] ∧
    (main envBroken 12).status = some 0 :=
  ⟨rfl, by decide, abnormal_path_correct envBroken 3 12 rfl (by decide)⟩

/-- C2 (non-return path, P3 / Scenario A): in a run whose `picoruby_run_mrb`
never returns, at no time does the trace hold the abnormal-termination
`printf`, an `mrb_close` or a process exit, `main` never terminates and no
status is reported; the text written is nothing before the third step and
exactly the startup marker from then on, and the trace stops growing at the
five bring-up entries. -/
theorem non_return_path (env : Platform)
    (hnr : env.picoruby_run_mrb env.picoruby_init = none) (n : Nat) :
    Event.printf abnormalMarker ∉ (main env n).trace ∧
    (∀ a, Event.mrb_close a ∉ (main env n).trace) ∧
    (∀ c, Event.exit c ∉ (main env n).trace) ∧
    (main env n).pc ≠ Pc.terminated ∧
    (main env n).status = none ∧
    (n < 3 → output (main env n).trace = []) ∧
    (3 ≤ n → output (main env n).trace = [startupMarker]) ∧
    (5 ≤ n → (main env n).trace = bringUp env.picoruby_init) := by
  have hsub := (main_trace_bringUp_of_loops env hnr n).subset
  refine ⟨?_, ?_, ?_, ?_, ?_, ?_, ?_, ?_⟩
  · intro hc
    have := hsub hc
    simp [bringUp, markers_ne.symm] at this
  · intro a hc
    have := hsub hc
    simp [bringUp] at this
  · intro c hc
    have := hsub hc
    simp [bringUp] at this
  · rcases Nat.le_total n 5 with h | h
    · exact (main_le_five env n h).2.2
    · rw [main_loops env hnr n h]; simp
  · rcases Nat.le_total n 5 with h | h
    · exact (main_le_five env n h).2.1
    · rw [main_loops env hnr n h]
  · intro h
    rw [(main_le_five env n (by omega)).1]
    interval_cases n <;> rfl
  · intro h3
    rcases Nat.le_total n 5 with h | h
    · rw [(main_le_five env n h).1]
      interval_cases n <;> rfl
    · rw [main_loops env hnr n h]; rfl
  · intro h
    rw [main_loops env hnr n h]

theorem non_return_path_witness :
    envLoops.picoruby_run_mrb envLoops.picoruby_init = none ∧
    (main envLoops 40).trace = bringUp 536870912 ∧
    output (main envLoops 40).trace = [startupMarker] ∧
    (main envLoops 40).status = none :=
  have h := non_return_path envLoops rfl 40
  ⟨rfl, h.2.2.2.2.2.2.2 (by decide), h.2.2.2.2.2.2.1 (by decide), h.2.2.2.2.1⟩

/-- C3 (ordering, P1): in every run, wherever the trace holds a `printf`,
the entries before it include the completed `sleep_ms(2000)`; the part of the
trace before the first `printf` begins with `stdio_init_all`, `sleep_ms(2000)`. -/
theorem output_after_delay (env : Platform) (n : Nat) (pre post : List Event)
    (text : String) (hsplit : (main env n).trace = pre ++ Event.printf text :: post) :
    Event.sleep_ms 2000 ∈ pre ∧
    [Event.stdio_init_all, Event.sleep_ms 2000] <+: pre := by
  have hp := main_trace_initial env n
  rw [hsplit] at hp
  obtain ⟨h1, h2⟩ := split_of_initial _ _ _ _ hp
  have hlt := getElem?_fullTrace_lt _ _ _ h2
  generalize pre.length = i at h1 h2 hlt
  subst h1
  interval_cases i <;>
    simp [fullTrace, bringUp, afterReturn] at h2 ⊢

theorem output_after_delay_witness :
    (main envReturns 3).trace =
      [Event.stdio_init_all, Event.sleep_ms 2000] ++ Event.printf startupMarker :: [] ∧
    Event.sleep_ms 2000 ∈ [Event.stdio_init_all, Event.sleep_ms 2000] ∧
    [Event.stdio_init_all, Event.sleep_ms 2000] <+:
      [Event.stdio_init_all, Event.sleep_ms 2000] :=
  ⟨rfl, output_after_delay envReturns 3 [Event.stdio_init_all, Event.sleep_ms 2000] []
    startupMarker rfl⟩

/-- C4 (single instance and single release, P2 / P5): in every run, returning
or not, every initial part of the trace holds at most one `picoruby_init` and
at most one `mrb_close`; an `mrb_close` is preceded by the return of
`picoruby_run_mrb` and by no other `mrb_close`; the trace of the completed
bring-up (five steps), and every trace from the fourth step on, holds exactly
one `picoruby_init`. -/
theorem single_instance_single_release (env : Platform) (n : Nat) (p : List Event)
    (hp : p <+: (main env n).trace) :
    p.countP Event.isConstruct ≤ 1 ∧
    p.countP Event.isRelease ≤ 1 ∧
    (∀ pre post a, p = pre ++ Event.mrb_close a :: post →
      Event.picoruby_run_mrb_returned ∈ pre ∧ pre.countP Event.isRelease = 0) ∧
    (main env 5).trace.countP Event.isConstruct = 1 ∧
    (4 ≤ n → (main env n).trace.countP Event.isConstruct = 1) := by
  have hfull : ∀ q, q <+: fullTrace env.picoruby_init →
      q.countP Event.isConstruct ≤ 1 ∧ q.countP Event.isRelease ≤ 1 := by
    intro q hq
    obtain ⟨m, hm, rfl⟩ := initial_fullTrace _ _ hq
    interval_cases m <;>
      simp [fullTrace, bringUp, afterReturn, Event.isConstruct, Event.isRelease]
  have hpf : p <+: fullTrace env.picoruby_init := hp.trans (main_trace_initial env n)
  refine ⟨(hfull p hpf).1, (hfull p hpf).2, ?_, ?_, ?_⟩
  · intro pre post a hsplit
    rw [hsplit] at hpf
    obtain ⟨h1, h2⟩ := split_of_initial _ _ _ _ hpf
    have hlt := getElem?_fullTrace_lt _ _ _ h2
    generalize pre.length = i at h1 h2 hlt
    subst h1
    interval_cases i <;>
      simp [fullTrace, bringUp, afterReturn, Event.isRelease] at h2 ⊢
  · rw [main_five]
    simp [bringUp, Event.isConstruct]
  · intro h4
    apply Nat.le_antisymm (hfull _ (main_trace_initial env n)).1
    obtain ⟨d, rfl⟩ := Nat.exists_eq_add_of_le h4
    have hmono := (main_trace_mono env 4 d).sublist.countP_le Event.isConstruct
    have h4c : (main env 4).trace.countP Event.isConstruct = 1 := by
      rw [(main_le_five env 4 (by decide)).1]
      simp [bringUp, Event.isConstruct]
    omega

theorem single_instance_single_release_witness :
    (main envReturns 9).trace <+: (main envReturns 9).trace ∧
    (main envReturns 9).trace.countP Event.isConstruct ≤ 1 ∧
    (main envReturns 9).trace.countP Event.isRelease ≤ 1 ∧
    (∀ pre post a, (main envReturns 9).trace = pre ++ Event.mrb_close a :: post →
      Event.picoruby_run_mrb_returned ∈ pre ∧ pre.countP Event.isRelease = 0) ∧
    (main envReturns 5).trace.countP Event.isConstruct = 1 ∧
    (4 ≤ 9 → (main envReturns 9).trace.countP Event.isConstruct = 1) :=
  ⟨List.prefix_refl _,
    single_instance_single_release envReturns 9 (main envReturns 9).trace (List.prefix_refl _)⟩

/-- C5 (bring-up order and hand-off): after five steps the trace is exactly
`stdio_init_all`, `sleep_ms(2000)`, the startup `printf`, `picoruby_init`
returning `h`, `picoruby_run_mrb` called with that `h`, and control is inside
`picoruby_run_mrb`; every shorter run has an initial part of that list as its
trace, and every longer run has that list at the front of its trace. -/
theorem bring_up_order (env : Platform) (n : Nat) :
    (main env 5).trace =
      [Event.stdio_init_all, Event.sleep_ms 2000, Event.printf startupMarker,
       Event.picoruby_init env.picoruby_init,
       Event.picoruby_run_mrb env.picoruby_init] ∧
    (main env 5).pc =
      Pc.inRun env.picoruby_init (env.picoruby_run_mrb env.picoruby_init) ∧
    (n ≤ 5 → (main env n).trace =
      List.take n [Event.stdio_init_all, Event.sleep_ms 2000, Event.printf startupMarker,
        Event.picoruby_init env.picoruby_init,
        Event.picoruby_run_mrb env.picoruby_init]) ∧
    (5 ≤ n →
      [Event.stdio_init_all, Event.sleep_ms 2000, Event.printf startupMarker,
        Event.picoruby_init env.picoruby_init,
        Event.picoruby_run_mrb env.picoruby_init] <+: (main env n).trace) := by
  refine ⟨rfl, rfl, fun h => (main_le_five env n h).1, fun h => ?_⟩
  obtain ⟨d, rfl⟩ := Nat.exists_eq_add_of_le h
  exact main_trace_mono env 5 d

theorem bring_up_order_witness :
    (main envBroken 5).trace =
      [Event.stdio_init_all, Event.sleep_ms 2000, Event.printf startupMarker,
       Event.picoruby_init 0, Event.picoruby_run_mrb 0] ∧
    (main envBroken 2).trace = [Event.stdio_init_all, Event.sleep_ms 2000] ∧
    bringUp 0 <+: (main envBroken 9).trace :=
  ⟨(bring_up_order envBroken 2).1, (bring_up_order envBroken 2).2.2.1 (by decide),
    (bring_up_order envBroken 9).2.2.2 (by decide)⟩

/-- C6 (Scenario B): in a run whose `picoruby_run_mrb` returns, the texts
written by `main` are, once it has terminated, exactly the startup marker
followed by the abnormal-termination marker; the two texts differ; the last
entry of the trace is the process exit and the status is `0`. -/
theorem scenario_returning_output (env : Platform) (k n : Nat)
    (hret : env.picoruby_run_mrb env.picoruby_init = some k) (hn : k + 9 ≤ n) :
    output (main env n).trace = [startupMarker, abnormalMarker] ∧
    startupMarker ≠ abnormalMarker ∧
    (main env n).trace.getLast? = some (Event.exit 0) ∧
    (main env n).pc = Pc.terminated ∧
    (main env n).status = some 0 := by
  rw [main_final env k hret n hn]
  exact ⟨rfl, markers_ne, rfl, rfl, rfl⟩

theorem scenario_returning_output_witness :
    envReturns.picoruby_run_mrb envReturns.picoruby_init = some 0 ∧ 0 + 9 ≤ 9 ∧
    output (main envReturns 9).trace =
      ["Starting PicoRuby Sequencer...\n",
       "Ruby execution ended (this should not happen)\n"] ∧
    startupMarker ≠ abnormalMarker ∧
    (main envReturns 9).trace.getLast? = some (Event.exit 0) ∧
    (main envReturns 9).pc = Pc.terminated ∧
    (main envReturns 9).status = some 0 :=
  ⟨rfl, by decide, scenario_returning_output envReturns 0 9 rfl (by decide)⟩

/-- C7 (abnormal-path step order): in a run whose `picoruby_run_mrb` returns,
the terminated trace is the bring-up, the return of `picoruby_run_mrb`, and
then exactly the abnormal-termination `printf`, `mrb_close` of the handle and
the exit with status `0`, in that order: whatever follows the return entry in
the trace is that three-element list. -/
theorem abnormal_step_order (env : Platform) (k n : Nat)
    (hret : env.picoruby_run_mrb env.picoruby_init = some k) (hn : k + 9 ≤ n) :
    (main env (k + 6)).trace =
      bringUp env.picoruby_init ++ [Event.picoruby_run_mrb_returned] ∧
    (main env n).trace =
      bringUp env.picoruby_init ++ Event.picoruby_run_mrb_returned ::
        [Event.printf abnormalMarker, Event.mrb_close env.picoruby_init, Event.exit 0] ∧
    (∀ pre post, (main env n).trace = pre ++ Event.picoruby_run_mrb_returned :: post →
      post = [Event.printf abnormalMarker, Event.mrb_close env.picoruby_init,
        Event.exit 0]) := by
  rw [main_final env k hret n hn, main_returned env k hret]
  refine ⟨rfl, rfl, ?_⟩
  intro pre post hsplit
  have hp : pre ++ Event.picoruby_run_mrb_returned :: post <+:
      fullTrace env.picoruby_init := by
    rw [← hsplit]
  obtain ⟨h1, h2⟩ := split_of_initial _ _ _ _ hp
  have hlt := getElem?_fullTrace_lt _ _ _ h2
  generalize pre.length = i at h1 h2 hlt
  subst h1
  interval_cases i <;>
    simp [fullTrace, bringUp, afterReturn] at h2 hsplit ⊢
  exact hsplit.symm

theorem abnormal_step_order_witness :
    envBroken.picoruby_run_mrb envBroken.picoruby_init = some 3 ∧ 3 + 9 ≤ 20 ∧
    (main envBroken (3 + 6)).trace = bringUp 0 ++ [Event.picoruby_run_mrb_returned] ∧
    (main envBroken 20).trace =
      bringUp 0 ++ Event.picoruby_run_mrb_returned ::
        [Event.printf abnormalMarker, Event.mrb_close 0, Event.exit 0] ∧
    (∀ pre post, (main envBroken 20).trace = pre ++ Event.picoruby_run_mrb_returned :: post →
      post = [Event.printf abnormalMarker, Event.mrb_close 0, Event.exit 0]) :=
  ⟨rfl, by decide, abnormal_step_order envBroken 3 20 rfl (by decide)⟩

/-- C8 (Scenario C, channel-init failure ignored): whatever `stdio_init_all`
returns, the state of `main` after any number of steps, its trace included,
is the one of the run in which `stdio_init_all` returns `true`; after five
steps the trace is the complete bring-up through `picoruby_init` and
`picoruby_run_mrb`, and no exit has happened. -/
theorem init_failure_ignored (b : Bool) (h : Handle) (r : Handle → Option Nat) (n : Nat) :
    main ⟨b, h, r⟩ n = main ⟨true, h, r⟩ n ∧
    (main ⟨b, h, r⟩ n).trace = (main ⟨true, h, r⟩ n).trace ∧
    (main ⟨b, h, r⟩ 5).trace =
      [Event.stdio_init_all, Event.sleep_ms 2000, Event.printf startupMarker,
       Event.picoruby_init h, Event.picoruby_run_mrb h] ∧
    (main ⟨b, h, r⟩ 5).status = none :=
  ⟨main_stdio_irrelevant b true h r n,
    congrArg State.trace (main_stdio_irrelevant b true h r n), rfl, rfl⟩

/-- C9 (constant, non-retried delay): in every run, for every result of
`stdio_init_all`, every pointer from `picoruby_init` and every behaviour of
`picoruby_run_mrb`, the `sleep_ms` calls in the trace are never more than the
single call `sleep_ms(2000)`, and from the second step on they are exactly
that one call. -/
theorem constant_delay (env : Platform) (n : Nat) :
    (main env n).trace.filter Event.isDelay <+: [Event.sleep_ms 2000] ∧
    (main env n).trace.countP Event.isDelay ≤ 1 ∧
    (2 ≤ n → (main env n).trace.filter Event.isDelay = [Event.sleep_ms 2000]) := by
  have hpre : (main env n).trace.filter Event.isDelay <+: [Event.sleep_ms 2000] := by
    obtain ⟨m, hm, hmeq⟩ := initial_fullTrace _ _ (main_trace_initial env n)
    rw [hmeq]
    interval_cases m <;> simp [fullTrace, bringUp, afterReturn, Event.isDelay]
  refine ⟨hpre, ?_, ?_⟩
  · rw [List.countP_eq_length_filter]
    simpa using hpre.length_le
  · intro h2
    obtain ⟨d, rfl⟩ := Nat.exists_eq_add_of_le h2
    have hmono := (main_trace_mono env 2 d).sublist.countP_le Event.isDelay
    have h2c : (main env 2).trace.countP Event.isDelay = 1 := by
      rw [(main_le_five env 2 (by decide)).1]
      simp [bringUp, Event.isDelay]
    rw [List.countP_eq_length_filter, List.countP_eq_length_filter] at hmono
    rw [List.countP_eq_length_filter] at h2c
    apply hpre.eq_of_length
    have := hpre.length_le
    simp only [List.length_singleton] at this ⊢
    omega

theorem constant_delay_witness :
    (main envLoops 1).trace.filter Event.isDelay = [] ∧
    (main envLoops 7).trace.filter Event.isDelay = [Event.sleep_ms 2000] ∧
    (main envBroken 12).trace.filter Event.isDelay = [Event.sleep_ms 2000] :=
  ⟨rfl, (constant_delay envLoops 7).2.2 (by decide),
    (constant_delay envBroken 12).2.2 (by decide)⟩

/-- C10 (construction failure not checked): for every pointer `picoruby_init`
returns, the null pointer `0` included, `main` calls `picoruby_run_mrb` with
that pointer as its fifth step; when that call returns, `main` calls
`mrb_close` with the same pointer, once, and exits with status `0`; and the
run with one pointer is, program point by program point, the run with any
other pointer for which `picoruby_run_mrb` behaves alike, with the pointer
substituted: nothing `main` does depends on the pointer. -/
theorem construction_failure_unchecked (env env2 : Platform) (k n : Nat) :
    (main env 5).trace.getLast? = some (Event.picoruby_run_mrb env.picoruby_init) ∧
    (main env 5).pc =
      Pc.inRun env.picoruby_init (env.picoruby_run_mrb env.picoruby_init) ∧
    (env.picoruby_run_mrb env.picoruby_init = some k → k + 9 ≤ n →
      (main env n).trace.filter Event.isRelease = [Event.mrb_close env.picoruby_init] ∧
      (main env n).trace = fullTrace env.picoruby_init ∧
      (main env n).status = some 0) ∧
    (env.picoruby_run_mrb env.picoruby_init = env2.picoruby_run_mrb env2.picoruby_init →
      (main env n).setHandle env2.picoruby_init = main env2 n) := by
  refine ⟨rfl, rfl, ?_, fun hrun => main_setHandle env env2 hrun n⟩
  intro hret hn
  rw [main_final env k hret n hn]
  refine ⟨?_, rfl, rfl⟩
  simp [fullTrace, bringUp, afterReturn, Event.isRelease]

theorem construction_failure_unchecked_witness :
    envBroken.picoruby_init = 0 ∧
    (main envBroken 5).trace.getLast? = some (Event.picoruby_run_mrb 0) ∧
    (main envBroken 12).trace.filter Event.isRelease = [Event.mrb_close 0] ∧
    (main envBroken 12).status = some 0 ∧
    (main envBroken 12).setHandle 536870912 = main ⟨true, 536870912, fun _ => some 3⟩ 12 :=
  have h := construction_failure_unchecked envBroken ⟨true, 536870912, fun _ => some 3⟩ 3 12
  ⟨rfl, h.1, (h.2.2.1 rfl (by decide)).1, (h.2.2.1 rfl (by decide)).2.2, h.2.2.2 rfl⟩

end PicoSequencer
